import Mathlib

/-!
Shallow embedding of the Titanic directory-sync tool (Go sources:
`diff/diff.go`, `model.go`, `main.go`, `config.go`) together with proofs
of the specification's claims about the diff engine, the inventory
producers and the session state machine.
-/

namespace Titanic

/-- Go's `<` on strings compares byte sequences; on UTF-8 data this is
exactly lexicographic order on the code points, i.e. on `String.data`. -/
def strLt (a b : String) : Prop := List.Lex (· < ·) a.data b.data

/-- Go's `<=` on strings (`sort.Strings` sorts ascending with respect to
it): the negation of the reversed strict order. -/
def strLe (a b : String) : Prop := ¬ strLt b a

instance strLtDec : DecidableRel strLt := fun a b => List.Lex.decidableRel _ a.data b.data

instance strLeDec : DecidableRel strLe := fun a b => instDecidableNot

/-- `FileHash` from `diff/diff.go`: a file path and its MD5 hash. -/
structure FileHash where
  Path : String
  Hash : String
deriving DecidableEq, Repr, Inhabited

/-- `DiffStatus` from `diff/diff.go`. -/
inductive DiffStatus where
  | Match
  | MissingSource
  | MissingDestination
  | Mismatch
deriving DecidableEq, Repr, Inhabited

/-- `Diff` from `diff/diff.go`: the comparison result for a single file. -/
structure Diff where
  Path : String
  SrcHash : String
  DstHash : String
  Status : DiffStatus
deriving DecidableEq, Repr, Inhabited

/-- One step of building a Go `map[string]string` from a list of
`FileHash` entries (the loops `srcMap[fh.Path] = fh.Hash` in
`ComputeDiff`): a later entry for the same path overwrites an earlier
one. -/
def mapStep (p : String) (acc : Option String) (fh : FileHash) : Option String :=
  if fh.Path = p then some fh.Hash else acc

/-- The Go map built from a `FileHash` list, queried at path `p`:
`some h` when `p` is a key (with `h` the hash of the last list entry for
`p`, matching Go map-assignment semantics), `none` when `p` is absent. -/
def mapOf (l : List FileHash) (p : String) : Option String :=
  l.foldl (mapStep p) none

/-- The `switch` in `ComputeDiff` classifying one path: missing-source is
checked first, then missing-destination, then hash inequality. -/
def classify (sOpt dOpt : Option String) : DiffStatus :=
  if sOpt = none then DiffStatus.MissingSource
  else if dOpt = none then DiffStatus.MissingDestination
  else if sOpt ≠ dOpt then DiffStatus.Mismatch
  else DiffStatus.Match

/-- The `Diff` record `ComputeDiff` emits for one path: absent hashes
become the empty string (Go's zero value for an absent map key). -/
def mkDiff (srcMap dstMap : String → Option String) (path : String) : Diff :=
  { Path := path
    SrcHash := (srcMap path).getD ""
    DstHash := (dstMap path).getD ""
    Status := classify (srcMap path) (dstMap path) }

/-- The key union (`pathSet`) of `ComputeDiff`: every path occurring in
either input list, each exactly once. -/
def pathsOf (srcList dstList : List FileHash) : List String :=
  ((srcList.map FileHash.Path) ++ (dstList.map FileHash.Path)).dedup

/-- The `paths` slice of `ComputeDiff` after `sort.Strings`. -/
def sortedPaths (srcList dstList : List FileHash) : List String :=
  List.insertionSort strLe (pathsOf srcList dstList)

/-- `ComputeDiff` from `diff/diff.go`: build a path-to-hash map per side,
take the union of keys, sort the paths ascending (`sort.Strings`), and
classify each path in order. -/
def ComputeDiff (srcList dstList : List FileHash) : List Diff :=
  (sortedPaths srcList dstList).map (mkDiff (mapOf srcList) (mapOf dstList))

/-- The hash attached to the last occurrence of path `p` in inventory
`l`, when any occurrence exists. Specification-side description of Go
map insertion order. -/
def lastHash (l : List FileHash) (p : String) : Option String :=
  ((l.filter (fun fh => fh.Path = p)).getLast?).map FileHash.Hash

/-! ### The session state machine of `model.go` -/

/-- `DirectoryPair` from `config.go`: a source (local or remote) and a
local destination. -/
structure DirectoryPair where
  Source : String
  Destination : String
deriving DecidableEq, Repr, Inhabited

/-- `Model` from `model.go`: directory pairs, current pair index, one
diff list per pair, the loading flag, and the set of in-flight paths
(`Syncing`, a Go string-keyed map used as a set). -/
structure Model where
  Pairs : List DirectoryPair
  Index : Nat
  Diffs : List (List Diff)
  Loading : Bool
  Syncing : Finset String
deriving DecidableEq

/-- The messages `Model.Update` handles. `syncDoneMsg.Err` is `none` for
a nil Go error and `some e` otherwise; `SrcHash` is the freshly re-read
source hash carried by the done message. `keyMsg` carries
`tea.KeyMsg.String()`. -/
inductive Msg where
  | diffsMsg (Diffs : List (List Diff))
  | syncStartMsg (Index : Nat) (Path : String)
  | syncDoneMsg (Index : Nat) (Path : String) (Err : Option String) (SrcHash : String)
  | keyMsg (Key : String)

/-- The commands `Model.Update` returns (`tea.Cmd` values), recorded
symbolically. `noCmd` is Go's `nil` command. -/
inductive Cmd where
  | noCmd
  | quit
  | computeDiffsCmd (pairs : List DirectoryPair)
  | syncStartCmd (index : Nat) (path : String)
  | syncFileCmd (index : Nat) (path : String) (pr : DirectoryPair)
  | batch (cmds : List Cmd)

/-- The patch loop in the `syncDoneMsg` branch of `Model.Update`: walk
the current diff list, and at the first record whose path equals the
message's path, set `DstHash` to the freshly read source hash and
`Status` to `Match`, then `break`. -/
def patchList (path srcHash : String) : List Diff → List Diff
  | [] => []
  | d :: rest =>
    if d.Path = path then
      { d with DstHash := srcHash, Status := DiffStatus.Match } :: rest
    else
      d :: patchList path srcHash rest

/-- The command list built by the `"s"` key branch of `Model.Update`:
for each record of the current diff list whose status is
`MissingDestination` or `Mismatch`, append a start command and a sync
command, in list order. -/
def syncCmds (idx : Nat) (pr : DirectoryPair) : List Diff → List Cmd
  | [] => []
  | d :: rest =>
    if d.Status = DiffStatus.MissingDestination ∨ d.Status = DiffStatus.Mismatch then
      Cmd.syncStartCmd idx d.Path :: Cmd.syncFileCmd idx d.Path pr :: syncCmds idx pr rest
    else
      syncCmds idx pr rest

/-- `Model.Update` from `model.go`. Go indexes `m.Diffs[msg.Index]` and
`m.Pairs[idx]` directly and would panic out of range; the embedding
totalizes those reads with `getD` (and `List.set` is a no-op out of
range), and the theorems about these branches carry the corresponding
in-range hypotheses. -/
def Model.update (m : Model) (msg : Msg) : Model × Cmd :=
  match msg with
  | Msg.diffsMsg ds => ({ m with Diffs := ds, Loading := false }, Cmd.noCmd)
  | Msg.syncStartMsg idx path =>
    if idx = m.Index then
      ({ m with Syncing := insert path m.Syncing }, Cmd.noCmd)
    else
      (m, Cmd.noCmd)
  | Msg.syncDoneMsg idx path err srcHash =>
    if idx = m.Index then
      if err = none then
        ({ m with
            Syncing := m.Syncing.erase path,
            Diffs := m.Diffs.set idx (patchList path srcHash (m.Diffs.getD idx [])) },
         Cmd.noCmd)
      else
        ({ m with Syncing := m.Syncing.erase path }, Cmd.noCmd)
    else
      (m, Cmd.noCmd)
  | Msg.keyMsg key =>
    if key = "q" then
      (m, Cmd.quit)
    else if key = "tab" then
      (if m.Index < m.Pairs.length - 1 then
        ({ m with Index := m.Index + 1 }, Cmd.noCmd)
      else
        ({ m with Index := 0 }, Cmd.noCmd))
    else if key = "r" then
      ({ m with Loading := true }, Cmd.computeDiffsCmd m.Pairs)
    else if key = "s" then
      (m, Cmd.batch (syncCmds m.Index (m.Pairs.getD m.Index default)
        (m.Diffs.getD m.Index [])))
    else
      (m, Cmd.noCmd)

/-! ### The inventory producers of `diff/diff.go` -/

/-- One entry visited by `filepath.WalkDir` inside `ListLocal`,
abstracting the filesystem: the walk may report an error for an entry
(`err != nil` in the callback), the entry may be a directory (skipped),
or a regular file whose open/read/hash either succeeds, yielding the
root-relative path and hash, or fails at some step. -/
inductive WalkStep where
  | walkErr (e : String)
  | dirEntry (path : String)
  | fileOk (rel : String) (hash : String)
  | fileErr (rel : String) (e : String)
deriving DecidableEq, Repr

/-- Whether a walk entry is one of the failing cases. -/
def isFailStep : WalkStep → Bool
  | WalkStep.walkErr _ => true
  | WalkStep.fileErr _ _ => true
  | _ => false

/-- The `FileHash` a successful file entry contributes. -/
def fileOf : WalkStep → Option FileHash
  | WalkStep.fileOk r h => some (FileHash.mk r h)
  | _ => none

/-- The callback loop of `ListLocal`: returning a non-nil error from the
callback aborts `filepath.WalkDir`, and `ListLocal` then returns
`nil, err`; directories are skipped; successful files are appended. -/
def listLocalWalk : List WalkStep → List FileHash → Except String (List FileHash)
  | [], acc => Except.ok acc
  | WalkStep.walkErr e :: _, _ => Except.error e
  | WalkStep.dirEntry _ :: rest, acc => listLocalWalk rest acc
  | WalkStep.fileOk r h :: rest, acc => listLocalWalk rest (acc ++ [FileHash.mk r h])
  | WalkStep.fileErr _ e :: _, _ => Except.error e

/-- `ListLocal` from `diff/diff.go`, over the abstract walk. -/
def ListLocal (steps : List WalkStep) : Except String (List FileHash) :=
  listLocalWalk steps []

/-- Result of running the remote `ssh host "cd base && find . -type f
-exec md5sum ..."` command in `ListRemote`: either `cmd.Run` returns a
non-nil error (which is how any remote per-file failure surfaces, since
a failing `md5sum` makes `find` and hence the remote shell exit
nonzero), or the run succeeds and produces output lines. -/
structure ExecResult where
  runErr : Option String
  outLines : List String

/-- `strings.TrimPrefix(file, "./")` as used by `ListRemote`. -/
def stripDotSlash (s : String) : String :=
  if s.startsWith "./" then s.drop 2 else s

/-- Parsing of one scanned output line in `ListRemote`:
`strings.Fields` splits on whitespace (here: space runs); lines with
fewer than two fields are skipped (`continue`); otherwise the first
field is the hash and the second the `./`-stripped path. -/
def parseLine (line : String) : Option FileHash :=
  match (line.splitOn " ").filter (fun f => f ≠ "") with
  | h :: file :: _ => some (FileHash.mk (stripDotSlash file) h)
  | _ => none

/-- `ListRemote` from `diff/diff.go`, over the abstract command result:
the address must contain a colon (`strings.SplitN(addr, ":", 2)` must
yield two parts), a failed run aborts with an ssh error, and otherwise
every well-formed output line yields one entry. -/
def ListRemote (addr : String) (res : ExecResult) : Except String (List FileHash) :=
  if (addr.splitOn ":").length < 2 then
    Except.error ("invalid remote address " ++ addr)
  else
    match res.runErr with
    | some e => Except.error ("ssh error: " ++ e)
    | none => Except.ok (res.outLines.filterMap parseLine)

/-- The pair-switch step: the model after one `"tab"` key event. -/
def stepTab (m : Model) : Model := (m.update (Msg.keyMsg "tab")).1

end Titanic

namespace Titanic

/-! ### Order facts about the byte-lexicographic string order -/

theorem strData_inj {a b : String} (h : a.data = b.data) : a = b :=
  congrArg String.mk h

theorem strLt_trichotomy (a b : String) : strLt a b ∨ a = b ∨ strLt b a := by
  rcases trichotomous_of (List.Lex (α := Char) (· < ·)) a.data b.data with h | h | h
  · exact Or.inl h
  · exact Or.inr (Or.inl (strData_inj h))
  · exact Or.inr (Or.inr h)

theorem strLt_asymm {a b : String} (h : strLt a b) : ¬ strLt b a :=
  asymm_of (List.Lex (α := Char) (· < ·)) h

theorem strLt_trans {a b c : String} (h1 : strLt a b) (h2 : strLt b c) : strLt a c := by
  have ht : IsTrans (List Char) (List.Lex (α := Char) (· < ·)) := inferInstance
  exact ht.trans _ _ _ h1 h2

theorem strLe_iff {a b : String} : strLe a b ↔ strLt a b ∨ a = b := by
  unfold strLe
  constructor
  · intro h
    rcases strLt_trichotomy a b with h1 | h1 | h1
    exacts [Or.inl h1, Or.inr h1, absurd h1 h]
  · rintro (h | rfl)
    · exact fun h2 => strLt_asymm h h2
    · exact fun h2 => strLt_asymm h2 h2

instance : IsTrans String strLe := by
  constructor
  intro a b c hab hbc
  rcases strLe_iff.mp hab with h1 | rfl
  · rcases strLe_iff.mp hbc with h2 | rfl
    · exact strLe_iff.mpr (Or.inl (strLt_trans h1 h2))
    · exact strLe_iff.mpr (Or.inl h1)
  · exact hbc

instance : IsTotal String strLe := by
  constructor
  intro a b
  rcases strLt_trichotomy a b with h | rfl | h
  · exact Or.inl (strLe_iff.mpr (Or.inl h))
  · exact Or.inl (strLe_iff.mpr (Or.inr rfl))
  · exact Or.inr (strLe_iff.mpr (Or.inl h))

instance : IsAntisymm String strLe := by
  constructor
  intro a b hab hba
  rcases strLe_iff.mp hab with h1 | rfl
  · rcases strLe_iff.mp hba with h2 | rfl
    · exact absurd h1 (strLt_asymm h2)
    · rfl
  · rfl

theorem sorted_strLt_of_sorted_strLe {l : List String} (hs : l.Sorted strLe)
    (hn : l.Nodup) : l.Sorted strLt :=
  hs.imp₂ (fun _ _ hle hne => (strLe_iff.mp hle).resolve_right hne) hn

/-! ### Facts about the Go map built by `ComputeDiff` -/

theorem foldl_mapStep (p : String) :
    ∀ (l : List FileHash) (a : Option String),
      l.foldl (mapStep p) a = (mapOf l p).elim a some := by
  intro l
  induction l with
  | nil => intro a; simp [mapOf]
  | cons fh t ih =>
    intro a
    have hcons : mapOf (fh :: t) p = (mapOf t p).elim (mapStep p none fh) some := by
      simp only [mapOf, List.foldl_cons]
      exact ih (mapStep p none fh)
    simp only [List.foldl_cons, hcons, ih (mapStep p a fh)]
    cases hmt : mapOf t p with
    | some h => simp
    | none =>
      simp only [Option.elim]
      unfold mapStep
      by_cases hp : fh.Path = p <;> simp [hp]

theorem mapOf_cons (fh : FileHash) (t : List FileHash) (p : String) :
    mapOf (fh :: t) p = (mapOf t p).elim (mapStep p none fh) some := by
  simp only [mapOf, List.foldl_cons]
  exact foldl_mapStep p t (mapStep p none fh)

theorem mapOf_append (l1 l2 : List FileHash) (p : String) :
    mapOf (l1 ++ l2) p = (mapOf l2 p).elim (mapOf l1 p) some := by
  simp only [mapOf, List.foldl_append]
  exact foldl_mapStep p l2 (mapOf l1 p)

theorem mapOf_eq_none {l : List FileHash} {p : String} :
    mapOf l p = none ↔ p ∉ l.map FileHash.Path := by
  induction l with
  | nil => simp [mapOf]
  | cons fh t ih =>
    rw [mapOf_cons]
    cases hmt : mapOf t p with
    | some h =>
      have hmem : p ∈ t.map FileHash.Path := by
        by_contra hnot
        rw [← ih] at hnot
        rw [hnot] at hmt
        exact Option.noConfusion hmt
      simp [hmem]
    | none =>
      have hnot : p ∉ t.map FileHash.Path := ih.mp hmt
      simp only [Option.elim, mapStep, List.map_cons, List.mem_cons]
      by_cases hp : fh.Path = p
      · subst hp
        simp
      · have hps : ¬ p = fh.Path := fun h => hp h.symm
        simp [hp, hnot, hps]

theorem mapOf_isSome {l : List FileHash} {p : String} :
    p ∈ l.map FileHash.Path ↔ ∃ h, mapOf l p = some h := by
  constructor
  · intro hmem
    cases hm : mapOf l p with
    | some x => exact ⟨x, rfl⟩
    | none => exact absurd hmem (mapOf_eq_none.mp hm)
  · rintro ⟨h, hm⟩
    by_contra hnot
    rw [← mapOf_eq_none] at hnot
    rw [hnot] at hm
    exact Option.noConfusion hm

theorem mapOf_mem {l : List FileHash} {p h : String} (hm : mapOf l p = some h) :
    FileHash.mk p h ∈ l := by
  induction l with
  | nil => simp [mapOf] at hm
  | cons fh t ih =>
    rw [mapOf_cons] at hm
    cases hmt : mapOf t p with
    | some x =>
      rw [hmt] at hm
      simp only [Option.elim] at hm
      cases hm
      exact List.mem_cons_of_mem _ (ih hmt)
    | none =>
      rw [hmt] at hm
      simp only [Option.elim, mapStep] at hm
      by_cases hp : fh.Path = p
      · rw [if_pos hp] at hm
        cases hm
        have he : (FileHash.mk p fh.Hash) = fh := by
          cases fh
          simp_all
        rw [he]
        exact List.mem_cons_self _ _
      · rw [if_neg hp] at hm
        exact Option.noConfusion hm

theorem mapOf_eq_lastHash (l : List FileHash) (p : String) :
    mapOf l p = lastHash l p := by
  induction l using List.reverseRecOn with
  | nil => simp [mapOf, lastHash]
  | append_singleton t fh ih =>
    rw [mapOf_append]
    unfold lastHash
    rw [List.filter_append]
    by_cases hp : fh.Path = p
    · have hf : List.filter (fun fh => decide (fh.Path = p)) [fh] = [fh] := by
        simp [hp]
      rw [hf, List.getLast?_concat]
      simp [mapOf, mapStep, hp]
    · have hf : List.filter (fun fh => decide (fh.Path = p)) [fh] = [] := by
        simp [hp]
      rw [hf, List.append_nil]
      have hone : mapOf [fh] p = none := by
        simp [mapOf, mapStep, hp]
      rw [hone]
      simp only [Option.elim]
      rw [ih]
      rfl

/-! ### Facts about the path list of `ComputeDiff` -/

theorem sortedPaths_perm (A B : List FileHash) :
    List.Perm (sortedPaths A B) (pathsOf A B) :=
  List.perm_insertionSort strLe _

theorem nodup_pathsOf (A B : List FileHash) : (pathsOf A B).Nodup :=
  List.nodup_dedup _

theorem nodup_sortedPaths (A B : List FileHash) : (sortedPaths A B).Nodup :=
  ((sortedPaths_perm A B).nodup_iff).mpr (nodup_pathsOf A B)

theorem mem_sortedPaths {A B : List FileHash} {p : String} :
    p ∈ sortedPaths A B ↔ p ∈ A.map FileHash.Path ∨ p ∈ B.map FileHash.Path := by
  rw [(sortedPaths_perm A B).mem_iff]
  simp [pathsOf]

theorem sorted_le_sortedPaths (A B : List FileHash) : (sortedPaths A B).Sorted strLe :=
  List.sorted_insertionSort strLe _

theorem sorted_lt_sortedPaths (A B : List FileHash) : (sortedPaths A B).Sorted strLt :=
  sorted_strLt_of_sorted_strLe (sorted_le_sortedPaths A B) (nodup_sortedPaths A B)

theorem computeDiff_map_path (A B : List FileHash) :
    (ComputeDiff A B).map Diff.Path = sortedPaths A B := by
  unfold ComputeDiff
  rw [List.map_map]
  have hcomp : Diff.Path ∘ mkDiff (mapOf A) (mapOf B) = id := funext fun p => rfl
  rw [hcomp, List.map_id]

theorem mem_computeDiff {A B : List FileHash} {r : Diff} :
    r ∈ ComputeDiff A B ↔
      ∃ p ∈ sortedPaths A B, r = mkDiff (mapOf A) (mapOf B) p := by
  simp only [ComputeDiff, List.mem_map]
  constructor
  · rintro ⟨p, hp, rfl⟩
    exact ⟨p, hp, rfl⟩
  · rintro ⟨p, hp, rfl⟩
    exact ⟨p, hp, rfl⟩

theorem mem_map_path_iff {l : List FileHash} {p : String} :
    p ∈ l.map FileHash.Path ↔ mapOf l p ≠ none := by
  simp [Ne, mapOf_eq_none]

/-- Classification facts for one record emitted by `ComputeDiff`: the
record's hashes come from actual entries of the inventories, and the
status is determined by presence and hash equality. -/
theorem computeDiff_record_facts {A B : List FileHash} {r : Diff}
    (hr : r ∈ ComputeDiff A B) :
    (r.Path ∈ A.map FileHash.Path → FileHash.mk r.Path r.SrcHash ∈ A) ∧
    (r.Path ∈ B.map FileHash.Path → FileHash.mk r.Path r.DstHash ∈ B) ∧
    (r.Status = DiffStatus.MissingSource ↔ r.Path ∉ A.map FileHash.Path) ∧
    (r.Status = DiffStatus.MissingDestination ↔ r.Path ∉ B.map FileHash.Path) ∧
    (r.Status = DiffStatus.Mismatch ↔
      (r.Path ∈ A.map FileHash.Path ∧ r.Path ∈ B.map FileHash.Path ∧
        r.SrcHash ≠ r.DstHash)) ∧
    (r.Status = DiffStatus.Match ↔
      (r.Path ∈ A.map FileHash.Path ∧ r.Path ∈ B.map FileHash.Path ∧
        r.SrcHash = r.DstHash)) := by
  obtain ⟨p, hp, rfl⟩ := mem_computeDiff.mp hr
  have hunion := mem_sortedPaths.mp hp
  have hmemA : p ∈ A.map FileHash.Path ↔ mapOf A p ≠ none := mem_map_path_iff
  have hmemB : p ∈ B.map FileHash.Path ↔ mapOf B p ≠ none := mem_map_path_iff
  cases hA : mapOf A p with
  | none =>
    cases hB : mapOf B p with
    | none =>
      exfalso
      rcases hunion with h | h
      · exact (hmemA.mp h) hA
      · exact (hmemB.mp h) hB
    | some d =>
      have hBmem : p ∈ B.map FileHash.Path := hmemB.mpr (by simp [hB])
      have hAmem : p ∉ A.map FileHash.Path := fun h => (hmemA.mp h) hA
      have hdmem : FileHash.mk p d ∈ B := mapOf_mem hB
      simp [mkDiff, classify, hA, hB, hAmem, hBmem, hdmem]
  | some s =>
    have hAmem : p ∈ A.map FileHash.Path := hmemA.mpr (by simp [hA])
    have hsmem : FileHash.mk p s ∈ A := mapOf_mem hA
    cases hB : mapOf B p with
    | none =>
      have hBmem : p ∉ B.map FileHash.Path := fun h => (hmemB.mp h) hB
      simp [mkDiff, classify, hA, hB, hAmem, hBmem, hsmem]
    | some d =>
      have hBmem : p ∈ B.map FileHash.Path := hmemB.mpr (by simp [hB])
      have hdmem : FileHash.mk p d ∈ B := mapOf_mem hB
      by_cases hsd : s = d
      · subst hsd
        simp [mkDiff, classify, hA, hB, hAmem, hBmem, hsmem, hdmem]
      · simp [mkDiff, classify, hA, hB, hAmem, hBmem, hsmem, hdmem, hsd]

/-- C1: for inventories in which each path occurs at most once,
`ComputeDiff` returns exactly one record per path of the union of the
two path sets, sorted in ascending lexicographic path order, with the
status determined by presence and hash equality exactly as the spec's
§3 invariant states. -/
theorem C1_computeDiff_correct (A B : List FileHash)
    (hA : (A.map FileHash.Path).Nodup) (hB : (B.map FileHash.Path).Nodup) :
    ((ComputeDiff A B).map Diff.Path).Nodup ∧
    List.Sorted strLt ((ComputeDiff A B).map Diff.Path) ∧
    (∀ p, p ∈ (ComputeDiff A B).map Diff.Path ↔
        p ∈ A.map FileHash.Path ∨ p ∈ B.map FileHash.Path) ∧
    (∀ r ∈ ComputeDiff A B,
      (r.Path ∈ A.map FileHash.Path → FileHash.mk r.Path r.SrcHash ∈ A) ∧
      (r.Path ∈ B.map FileHash.Path → FileHash.mk r.Path r.DstHash ∈ B) ∧
      (r.Status = DiffStatus.MissingSource ↔ r.Path ∉ A.map FileHash.Path) ∧
      (r.Status = DiffStatus.MissingDestination ↔ r.Path ∉ B.map FileHash.Path) ∧
      (r.Status = DiffStatus.Mismatch ↔
        (r.Path ∈ A.map FileHash.Path ∧ r.Path ∈ B.map FileHash.Path ∧
          r.SrcHash ≠ r.DstHash)) ∧
      (r.Status = DiffStatus.Match ↔
        (r.Path ∈ A.map FileHash.Path ∧ r.Path ∈ B.map FileHash.Path ∧
          r.SrcHash = r.DstHash))) := by
  refine ⟨?_, ?_, ?_, ?_⟩
  · rw [computeDiff_map_path]
    exact nodup_sortedPaths A B
  · rw [computeDiff_map_path]
    exact sorted_lt_sortedPaths A B
  · intro p
    rw [computeDiff_map_path]
    exact mem_sortedPaths
  · intro r hr
    exact computeDiff_record_facts hr

/-- Witness for C1 at the spec's §8 example inputs. -/
theorem C1_witness :
    (([⟨"foo.txt", "h1"⟩, ⟨"bar.txt", "h2"⟩] : List FileHash).map FileHash.Path).Nodup ∧
    (([⟨"foo.txt", "h1"⟩] : List FileHash).map FileHash.Path).Nodup ∧
    List.Sorted strLt
      ((ComputeDiff [⟨"foo.txt", "h1"⟩, ⟨"bar.txt", "h2"⟩]
        [⟨"foo.txt", "h1"⟩]).map Diff.Path) :=
  ⟨by decide, by decide,
   (C1_computeDiff_correct [⟨"foo.txt", "h1"⟩, ⟨"bar.txt", "h2"⟩]
     [⟨"foo.txt", "h1"⟩] (by decide) (by decide)).2.1⟩

/-! ### Order independence of `ComputeDiff` -/

theorem mapOf_congr_perm {A A' : List FileHash}
    (hA : (A.map FileHash.Path).Nodup) (hp : List.Perm A' A) :
    mapOf A' = mapOf A := by
  funext p
  cases h : mapOf A p with
  | none =>
    have hnot : p ∉ A.map FileHash.Path := mapOf_eq_none.mp h
    have hnot2 : p ∉ A'.map FileHash.Path := fun hm =>
      hnot ((hp.map FileHash.Path).mem_iff.mp hm)
    exact mapOf_eq_none.mpr hnot2
  | some s =>
    have hmem : FileHash.mk p s ∈ A := mapOf_mem h
    have hmem2 : p ∈ A'.map FileHash.Path := by
      rw [(hp.map FileHash.Path).mem_iff]
      exact mem_map_path_iff.mpr (by simp [h])
    obtain ⟨s2, hs2⟩ := mapOf_isSome.mp hmem2
    have hmem3 : FileHash.mk p s2 ∈ A := hp.mem_iff.mp (mapOf_mem hs2)
    have heq : FileHash.mk p s2 = FileHash.mk p s :=
      List.inj_on_of_nodup_map hA hmem3 hmem rfl
    rw [hs2]
    cases heq
    rfl

theorem pathsOf_perm {A A' B B' : List FileHash}
    (pA : List.Perm A' A) (pB : List.Perm B' B) :
    List.Perm (pathsOf A' B') (pathsOf A B) :=
  ((pA.map FileHash.Path).append (pB.map FileHash.Path)).dedup

theorem sortedPaths_congr {A A' B B' : List FileHash}
    (pA : List.Perm A' A) (pB : List.Perm B' B) :
    sortedPaths A' B' = sortedPaths A B :=
  List.eq_of_perm_of_sorted
    ((sortedPaths_perm A' B').trans
      ((pathsOf_perm pA pB).trans (sortedPaths_perm A B).symm))
    (sorted_le_sortedPaths A' B') (sorted_le_sortedPaths A B)

/-- C7: `ComputeDiff` is order-independent in its inputs (for inventories
with unique paths) and deterministic. -/
theorem C7_computeDiff_order_indep (A B A' B' : List FileHash)
    (hA : (A.map FileHash.Path).Nodup) (hB : (B.map FileHash.Path).Nodup)
    (pA : List.Perm A' A) (pB : List.Perm B' B) :
    ComputeDiff A' B' = ComputeDiff A B ∧ ComputeDiff A B = ComputeDiff A B := by
  refine ⟨?_, rfl⟩
  unfold ComputeDiff
  rw [sortedPaths_congr pA pB, mapOf_congr_perm hA pA, mapOf_congr_perm hB pB]

/-- Witness for C7: permuting a two-entry source inventory leaves the
output unchanged. -/
theorem C7_witness :
    List.Perm ([⟨"b", "h2"⟩, ⟨"a", "h1"⟩] : List FileHash) [⟨"a", "h1"⟩, ⟨"b", "h2"⟩] ∧
    ComputeDiff [⟨"b", "h2"⟩, ⟨"a", "h1"⟩] [⟨"c", "h3"⟩] =
      ComputeDiff [⟨"a", "h1"⟩, ⟨"b", "h2"⟩] [⟨"c", "h3"⟩] :=
  ⟨by decide,
   (C7_computeDiff_order_indep [⟨"a", "h1"⟩, ⟨"b", "h2"⟩] [⟨"c", "h3"⟩]
     [⟨"b", "h2"⟩, ⟨"a", "h1"⟩] [⟨"c", "h3"⟩]
     (by decide) (by decide) (by decide) (by decide)).1⟩

/-- C10: if a path occurs more than once in the source inventory,
`ComputeDiff` still emits exactly one record for it, classified from the
hash of the last occurrence (Go map assignment overwrites). -/
theorem C10_computeDiff_dup (A B : List FileHash) (p : String)
    (hp : 1 < (A.map FileHash.Path).count p ∨ 1 < (B.map FileHash.Path).count p) :
    ((ComputeDiff A B).map Diff.Path).count p = 1 ∧
    (∀ r ∈ ComputeDiff A B, r.Path = p →
      r.SrcHash = (lastHash A p).getD "" ∧
      r.DstHash = (lastHash B p).getD "" ∧
      r.Status = classify (lastHash A p) (lastHash B p)) := by
  have hmem : p ∈ A.map FileHash.Path ∨ p ∈ B.map FileHash.Path := by
    rcases hp with hp | hp
    · left
      by_contra hnot
      rw [List.count_eq_zero_of_not_mem hnot] at hp
      exact Nat.not_lt_zero 1 (Nat.lt_of_lt_of_le hp (Nat.zero_le 0))
    · right
      by_contra hnot
      rw [List.count_eq_zero_of_not_mem hnot] at hp
      exact Nat.not_lt_zero 1 (Nat.lt_of_lt_of_le hp (Nat.zero_le 0))
  constructor
  · rw [computeDiff_map_path]
    exact List.count_eq_one_of_mem (nodup_sortedPaths A B)
      (mem_sortedPaths.mpr hmem)
  · intro r hr hpath
    obtain ⟨q, hq, rfl⟩ := mem_computeDiff.mp hr
    have hqp : q = p := hpath
    subst hqp
    refine ⟨?_, ?_, ?_⟩ <;> simp [mkDiff, mapOf_eq_lastHash]

/-- Witness for C10: the source lists path `a` twice with different
hashes; the single output record carries the second hash. -/
theorem C10_witness :
    1 < (([⟨"a", "h1"⟩, ⟨"a", "h2"⟩] : List FileHash).map FileHash.Path).count "a" ∧
    ((ComputeDiff [⟨"a", "h1"⟩, ⟨"a", "h2"⟩] []).map Diff.Path).count "a" = 1 :=
  ⟨by decide,
   (C10_computeDiff_dup [⟨"a", "h1"⟩, ⟨"a", "h2"⟩] [] "a" (Or.inl (by decide))).1⟩


/-! ### Helper lemmas about `List.set`, `List.getD` and `patchList` -/

theorem getD_set_self {α : Type} {l : List α} {i : Nat} {x d : α}
    (h : i < l.length) : (l.set i x).getD i d = x := by
  rw [List.getD_eq_getElem?_getD, List.getElem?_set_self h, Option.getD_some]

theorem getD_set_ne {α : Type} {l : List α} {i j : Nat} {x d : α}
    (h : i ≠ j) : (l.set i x).getD j d = l.getD j d := by
  rw [List.getD_eq_getElem?_getD, List.getElem?_set_ne h, ← List.getD_eq_getElem?_getD]

theorem patchList_length (path srcHash : String) :
    ∀ l : List Diff, (patchList path srcHash l).length = l.length := by
  intro l
  induction l with
  | nil => rfl
  | cons d rest ih =>
    unfold patchList
    by_cases hd : d.Path = path <;> simp [hd, ih]

/-- If the path occurs in the list, `patchList` rewrites the first
matching record to the patched form at the same position. -/
theorem patchList_first (path srcHash : String) :
    ∀ l : List Diff, path ∈ l.map Diff.Path →
      ∃ i, i < l.length ∧ (l.getD i default).Path = path ∧
        (patchList path srcHash l).getD i default =
          { l.getD i default with DstHash := srcHash, Status := DiffStatus.Match } := by
  intro l
  induction l with
  | nil => intro h; simp at h
  | cons d rest ih =>
    intro h
    by_cases hd : d.Path = path
    · refine ⟨0, by simp, ?_, ?_⟩
      · simpa using hd
      · unfold patchList
        rw [if_pos hd]
        simp
    · have hrest : path ∈ rest.map Diff.Path := by
        rcases List.mem_cons.mp h with h1 | h1
        · exact absurd h1.symm hd
        · exact h1
      obtain ⟨i, hi, hpath, hpatch⟩ := ih hrest
      refine ⟨i + 1, by simpa using hi, ?_, ?_⟩
      · simpa using hpath
      · unfold patchList
        rw [if_neg hd]
        simpa using hpatch

/-- Each position of `patchList`'s output is either the original record
or the patched form of a record whose path matches. -/
theorem patchList_getD (path srcHash : String) :
    ∀ (l : List Diff) (i : Nat),
      (patchList path srcHash l).getD i default = l.getD i default ∨
      ((l.getD i default).Path = path ∧
        (patchList path srcHash l).getD i default =
          { l.getD i default with DstHash := srcHash, Status := DiffStatus.Match }) := by
  intro l
  induction l with
  | nil => intro i; left; rfl
  | cons d rest ih =>
    intro i
    unfold patchList
    by_cases hd : d.Path = path
    · rw [if_pos hd]
      cases i with
      | zero => right; exact ⟨hd, by simp⟩
      | succ n => left; simp
    · rw [if_neg hd]
      cases i with
      | zero => left; simp
      | succ n => simpa using ih n

/-- `patchList` changes at most one position. -/
theorem patchList_changed_unique (path srcHash : String) :
    ∀ (l : List Diff) (i j : Nat),
      (patchList path srcHash l).getD i default ≠ l.getD i default →
      (patchList path srcHash l).getD j default ≠ l.getD j default → i = j := by
  intro l
  induction l with
  | nil => intro i j hi _; exact absurd rfl hi
  | cons d rest ih =>
    intro i j hi hj
    unfold patchList at hi hj
    by_cases hd : d.Path = path
    · rw [if_pos hd] at hi hj
      cases i with
      | zero =>
        cases j with
        | zero => rfl
        | succ n => exact absurd (by simp) hj
      | succ n => exact absurd (by simp) hi
    · rw [if_neg hd] at hi hj
      cases i with
      | zero => exact absurd (by simp) hi
      | succ n =>
        cases j with
        | zero => exact absurd (by simp) hj
        | succ k => simp only [List.getD_cons_succ] at hi hj; rw [ih n k hi hj]

/-! ### Claims about the session state machine -/

/-- C3: a failed sync-done event for the current pair only removes the
path from the in-flight set; the pair list, the index, the loading flag
and every diff record of every pair are left bit-for-bit unchanged. -/
theorem C3_syncDone_failure (m : Model) (p e h : String) :
    m.update (Msg.syncDoneMsg m.Index p (some e) h) =
      ({ m with Syncing := m.Syncing.erase p }, Cmd.noCmd) := by
  simp [Model.update]

/-- C4: sync-start and sync-done events whose pair index differs from
the current index leave the whole session unchanged. -/
theorem C4_other_pair_ignored (m : Model) (idx : Nat) (p h : String)
    (err : Option String) (hne : idx ≠ m.Index) :
    m.update (Msg.syncStartMsg idx p) = (m, Cmd.noCmd) ∧
    m.update (Msg.syncDoneMsg idx p err h) = (m, Cmd.noCmd) := by
  constructor <;> simp [Model.update, hne]

/-- Witness for C4 on a concrete one-pair session. -/
theorem C4_witness :
    (1 ≠ (Model.mk [⟨"s", "d"⟩] 0
        [[⟨"f", "h1", "", DiffStatus.MissingDestination⟩]] false ∅).Index) ∧
    (Model.mk [⟨"s", "d"⟩] 0
        [[⟨"f", "h1", "", DiffStatus.MissingDestination⟩]] false ∅).update
      (Msg.syncStartMsg 1 "f") =
      (Model.mk [⟨"s", "d"⟩] 0
        [[⟨"f", "h1", "", DiffStatus.MissingDestination⟩]] false ∅, Cmd.noCmd) :=
  ⟨by decide,
   (C4_other_pair_ignored (Model.mk [⟨"s", "d"⟩] 0
      [[⟨"f", "h1", "", DiffStatus.MissingDestination⟩]] false ∅)
      1 "f" "h2" none (by decide)).1⟩


theorem update_tab (m : Model) :
    m.update (Msg.keyMsg "tab") =
      (if m.Index < m.Pairs.length - 1 then ({ m with Index := m.Index + 1 }, Cmd.noCmd)
       else ({ m with Index := 0 }, Cmd.noCmd)) := by
  have hq : (("tab" : String) = "q") = False := by simp
  simp only [Model.update, hq, if_false, if_pos rfl, if_true]

theorem stepTab_mod (m : Model) (hidx : m.Index < m.Pairs.length) :
    stepTab m = { m with Index := (m.Index + 1) % m.Pairs.length } := by
  unfold stepTab
  rw [update_tab]
  by_cases hc : m.Index < m.Pairs.length - 1
  · rw [if_pos hc]
    have hlt : m.Index + 1 < m.Pairs.length := by omega
    rw [Nat.mod_eq_of_lt hlt]
  · rw [if_neg hc]
    have heq : m.Index + 1 = m.Pairs.length := by omega
    rw [heq, Nat.mod_self]

theorem stepTab_iterate (m : Model) (hidx : m.Index < m.Pairs.length) :
    ∀ n, stepTab^[n] m = { m with Index := (m.Index + n) % m.Pairs.length } := by
  have hpos : 0 < m.Pairs.length := Nat.lt_of_le_of_lt (Nat.zero_le _) hidx
  intro n
  induction n with
  | zero =>
    rw [Function.iterate_zero_apply, Nat.add_zero, Nat.mod_eq_of_lt hidx]
  | succ n ih =>
    rw [Function.iterate_succ_apply', ih]
    rw [stepTab_mod { m with Index := (m.Index + n) % m.Pairs.length }
      (Nat.mod_lt _ hpos)]
    simp only [Nat.mod_add_mod, Nat.add_assoc]

/-- C9: for a session with at least one pair (and the current index in
range), a pair-switch event advances the index to
`(index + 1) mod pair_count` and changes nothing else, and switching
`pair_count` times returns to the original session. -/
theorem C9_tab_cycles (m : Model) (hpos : 0 < m.Pairs.length)
    (hidx : m.Index < m.Pairs.length) :
    m.update (Msg.keyMsg "tab") =
      ({ m with Index := (m.Index + 1) % m.Pairs.length }, Cmd.noCmd) ∧
    stepTab^[m.Pairs.length] m = m := by
  constructor
  · rw [update_tab]
    by_cases hc : m.Index < m.Pairs.length - 1
    · rw [if_pos hc]
      have hlt : m.Index + 1 < m.Pairs.length := by omega
      rw [Nat.mod_eq_of_lt hlt]
    · rw [if_neg hc]
      have heq : m.Index + 1 = m.Pairs.length := by omega
      rw [heq, Nat.mod_self]
  · rw [stepTab_iterate m hidx, Nat.add_mod_right, Nat.mod_eq_of_lt hidx]

/-- Witness for C9 on a concrete two-pair session. -/
theorem C9_witness :
    0 < (Model.mk [⟨"s1", "d1"⟩, ⟨"s2", "d2"⟩] 0 [] false ∅).Pairs.length ∧
    stepTab^[2] (Model.mk [⟨"s1", "d1"⟩, ⟨"s2", "d2"⟩] 0 [] false ∅) =
      Model.mk [⟨"s1", "d1"⟩, ⟨"s2", "d2"⟩] 0 [] false ∅ :=
  ⟨by decide,
   (C9_tab_cycles (Model.mk [⟨"s1", "d1"⟩, ⟨"s2", "d2"⟩] 0 [] false ∅)
     (by decide) (by decide)).2⟩

theorem syncCmds_start_mem {idx : Nat} {pr : DirectoryPair} {p : String} :
    ∀ l : List Diff,
      Cmd.syncStartCmd idx p ∈ syncCmds idx pr l ↔
        ∃ d ∈ l, d.Path = p ∧
          (d.Status = DiffStatus.MissingDestination ∨ d.Status = DiffStatus.Mismatch) := by
  intro l
  induction l with
  | nil => simp [syncCmds]
  | cons d rest ih =>
    unfold syncCmds
    by_cases hd : d.Status = DiffStatus.MissingDestination ∨ d.Status = DiffStatus.Mismatch
    · rw [if_pos hd]
      simp only [List.mem_cons, ih]
      constructor
      · rintro (he | he | he)
        · cases he
          exact ⟨d, Or.inl rfl, rfl, hd⟩
        · exact absurd he (by simp)
        · obtain ⟨d2, hd2, he2⟩ := he
          exact ⟨d2, Or.inr hd2, he2⟩
      · rintro ⟨d2, hd2 | hd2, hpath, hsel⟩
        · cases hd2
          left
          rw [hpath]
        · exact Or.inr (Or.inr ⟨d2, hd2, hpath, hsel⟩)
    · rw [if_neg hd]
      simp only [ih]
      constructor
      · rintro ⟨d2, hd2, he2⟩
        exact ⟨d2, List.mem_cons_of_mem _ hd2, he2⟩
      · rintro ⟨d2, hd2, hpath, hsel⟩
        rcases List.mem_cons.mp hd2 with h2 | h2
        · cases h2
          exact absurd hsel hd
        · exact ⟨d2, h2, hpath, hsel⟩

theorem syncCmds_file_mem {idx : Nat} {pr : DirectoryPair} {p : String} :
    ∀ l : List Diff,
      Cmd.syncFileCmd idx p pr ∈ syncCmds idx pr l ↔
        ∃ d ∈ l, d.Path = p ∧
          (d.Status = DiffStatus.MissingDestination ∨ d.Status = DiffStatus.Mismatch) := by
  intro l
  induction l with
  | nil => simp [syncCmds]
  | cons d rest ih =>
    unfold syncCmds
    by_cases hd : d.Status = DiffStatus.MissingDestination ∨ d.Status = DiffStatus.Mismatch
    · rw [if_pos hd]
      simp only [List.mem_cons, ih]
      constructor
      · rintro (he | he | he)
        · exact absurd he (by simp)
        · cases he
          exact ⟨d, Or.inl rfl, rfl, hd⟩
        · obtain ⟨d2, hd2, he2⟩ := he
          exact ⟨d2, Or.inr hd2, he2⟩
      · rintro ⟨d2, hd2 | hd2, hpath, hsel⟩
        · cases hd2
          right
          left
          rw [hpath]
        · exact Or.inr (Or.inr ⟨d2, hd2, hpath, hsel⟩)
    · rw [if_neg hd]
      simp only [ih]
      constructor
      · rintro ⟨d2, hd2, he2⟩
        exact ⟨d2, List.mem_cons_of_mem _ hd2, he2⟩
      · rintro ⟨d2, hd2, hpath, hsel⟩
        rcases List.mem_cons.mp hd2 with h2 | h2
        · cases h2
          exact absurd hsel hd
        · exact ⟨d2, h2, hpath, hsel⟩

theorem update_s (m : Model) :
    m.update (Msg.keyMsg "s") =
      (m, Cmd.batch (syncCmds m.Index (m.Pairs.getD m.Index default)
        (m.Diffs.getD m.Index []))) := by
  have h1 : (("s" : String) = "q") = False := by simp
  have h2 : (("s" : String) = "tab") = False := by simp
  have h3 : (("s" : String) = "r") = False := by simp
  simp only [Model.update, h1, h2, h3, if_false, if_pos rfl, if_true]

/-- C5: a sync request issues a start command and a repair command for
exactly the paths of records of the current diff list whose status is
`MissingDestination` or `Mismatch`; `MissingSource` and `Match` records
are never selected. -/
theorem C5_sync_request_selection (m : Model) :
    m.update (Msg.keyMsg "s") =
      (m, Cmd.batch (syncCmds m.Index (m.Pairs.getD m.Index default)
        (m.Diffs.getD m.Index []))) ∧
    ∀ p : String,
      (Cmd.syncStartCmd m.Index p ∈
          syncCmds m.Index (m.Pairs.getD m.Index default) (m.Diffs.getD m.Index []) ∧
        Cmd.syncFileCmd m.Index p (m.Pairs.getD m.Index default) ∈
          syncCmds m.Index (m.Pairs.getD m.Index default) (m.Diffs.getD m.Index [])) ↔
      ∃ d ∈ m.Diffs.getD m.Index [], d.Path = p ∧
        (d.Status = DiffStatus.MissingDestination ∨ d.Status = DiffStatus.Mismatch) := by
  refine ⟨update_s m, fun p => ?_⟩
  constructor
  · rintro ⟨hs, _⟩
    exact (syncCmds_start_mem _).mp hs
  · intro hsel
    exact ⟨(syncCmds_start_mem _).mpr hsel, (syncCmds_file_mem _).mpr hsel⟩

/-- C2 as stated is false on the code: the destination hash written on a
successful sync-done event is the event's freshly read source hash,
which can differ from the record's stored source hash. Concretely, with
a record `(f, h1, _, MissingDestination)` and a done event carrying
fresh hash `h2`, the patched record has `DstHash = "h2" ≠ "h1" =
SrcHash`. -/
theorem C2_counterexample :
    ¬ (∀ r ∈ ((Model.mk [⟨"src", "dst"⟩] 0
          [[⟨"f", "h1", "", DiffStatus.MissingDestination⟩]] false
          {"f"}).update (Msg.syncDoneMsg 0 "f" none "h2")).1.Diffs.getD 0 [],
        r.Path = "f" → r.DstHash = r.SrcHash) := by decide

/-- C2 (amended): after a successful sync-done event for path P on the
current pair, the first record for P gets status `Match` and destination
hash equal to the event's freshly read source hash (its path and source
hash are untouched), and P is removed from the in-flight set. -/
theorem C2_syncDone_success (m : Model) (p h : String)
    (hlen : m.Index < m.Diffs.length)
    (hp : p ∈ (m.Diffs.getD m.Index []).map Diff.Path) :
    ∃ i, i < (m.Diffs.getD m.Index []).length ∧
      ((m.Diffs.getD m.Index []).getD i default).Path = p ∧
      ((m.update (Msg.syncDoneMsg m.Index p none h)).1.Diffs.getD m.Index []).getD
          i default =
        { (m.Diffs.getD m.Index []).getD i default with
            DstHash := h, Status := DiffStatus.Match } ∧
      (m.update (Msg.syncDoneMsg m.Index p none h)).1.Syncing = m.Syncing.erase p ∧
      p ∉ (m.update (Msg.syncDoneMsg m.Index p none h)).1.Syncing := by
  have hupd : m.update (Msg.syncDoneMsg m.Index p none h) =
      ({ m with
          Syncing := m.Syncing.erase p,
          Diffs := m.Diffs.set m.Index (patchList p h (m.Diffs.getD m.Index [])) },
       Cmd.noCmd) := by
    simp [Model.update]
  obtain ⟨i, hi, hpath, hpatch⟩ := patchList_first p h (m.Diffs.getD m.Index []) hp
  refine ⟨i, hi, hpath, ?_, ?_, ?_⟩
  · rw [hupd]
    show ((m.Diffs.set m.Index
        (patchList p h (m.Diffs.getD m.Index []))).getD m.Index []).getD i default = _
    rw [getD_set_self hlen]
    exact hpatch
  · rw [hupd]
  · rw [hupd]
    exact Finset.not_mem_erase p m.Syncing

/-- Witness for C2 (amended) on a concrete one-pair session. -/
theorem C2_witness :
    (0 < (Model.mk [⟨"src", "dst"⟩] 0
        [[⟨"f", "h1", "", DiffStatus.MissingDestination⟩]] false {"f"}).Diffs.length) ∧
    ("f" ∈ ((Model.mk [⟨"src", "dst"⟩] 0
        [[⟨"f", "h1", "", DiffStatus.MissingDestination⟩]] false
        {"f"}).Diffs.getD 0 []).map Diff.Path) ∧
    (∃ i, i < ((Model.mk [⟨"src", "dst"⟩] 0
          [[⟨"f", "h1", "", DiffStatus.MissingDestination⟩]] false
          {"f"}).Diffs.getD 0 []).length ∧
      (((Model.mk [⟨"src", "dst"⟩] 0
          [[⟨"f", "h1", "", DiffStatus.MissingDestination⟩]] false
          {"f"}).Diffs.getD 0 []).getD i default).Path = "f" ∧
      (((Model.mk [⟨"src", "dst"⟩] 0
            [[⟨"f", "h1", "", DiffStatus.MissingDestination⟩]] false
            {"f"}).update (Msg.syncDoneMsg 0 "f" none "h2")).1.Diffs.getD 0 []).getD
          i default =
        { ((Model.mk [⟨"src", "dst"⟩] 0
            [[⟨"f", "h1", "", DiffStatus.MissingDestination⟩]] false
            {"f"}).Diffs.getD 0 []).getD i default with
            DstHash := "h2", Status := DiffStatus.Match } ∧
      ((Model.mk [⟨"src", "dst"⟩] 0
          [[⟨"f", "h1", "", DiffStatus.MissingDestination⟩]] false
          {"f"}).update (Msg.syncDoneMsg 0 "f" none "h2")).1.Syncing =
        (Model.mk [⟨"src", "dst"⟩] 0
          [[⟨"f", "h1", "", DiffStatus.MissingDestination⟩]] false
          {"f"}).Syncing.erase "f" ∧
      "f" ∉ ((Model.mk [⟨"src", "dst"⟩] 0
          [[⟨"f", "h1", "", DiffStatus.MissingDestination⟩]] false
          {"f"}).update (Msg.syncDoneMsg 0 "f" none "h2")).1.Syncing) :=
  ⟨by decide, by decide,
   C2_syncDone_success (Model.mk [⟨"src", "dst"⟩] 0
      [[⟨"f", "h1", "", DiffStatus.MissingDestination⟩]] false {"f"})
     "f" "h2" (by decide) (by decide)⟩

/-- C6: a successful sync-done event for the current pair returns no
command, leaves the pair list, current index, loading flag, the number
of diff lists and all other pairs' diff lists unchanged, and patches at
most one record of the current diff list — one whose path equals the
event's path — changing only its destination hash and status. -/
theorem C6_syncDone_frame (m : Model) (p h : String)
    (hlen : m.Index < m.Diffs.length) :
    ((m.update (Msg.syncDoneMsg m.Index p none h)).2 = Cmd.noCmd) ∧
    ((m.update (Msg.syncDoneMsg m.Index p none h)).1.Pairs = m.Pairs) ∧
    ((m.update (Msg.syncDoneMsg m.Index p none h)).1.Index = m.Index) ∧
    ((m.update (Msg.syncDoneMsg m.Index p none h)).1.Loading = m.Loading) ∧
    ((m.update (Msg.syncDoneMsg m.Index p none h)).1.Diffs.length = m.Diffs.length) ∧
    (∀ j, j ≠ m.Index →
      (m.update (Msg.syncDoneMsg m.Index p none h)).1.Diffs.getD j [] =
        m.Diffs.getD j []) ∧
    (((m.update (Msg.syncDoneMsg m.Index p none h)).1.Diffs.getD m.Index []).length =
      (m.Diffs.getD m.Index []).length) ∧
    (∀ i,
      ((m.update (Msg.syncDoneMsg m.Index p none h)).1.Diffs.getD m.Index []).getD
          i default =
        (m.Diffs.getD m.Index []).getD i default ∨
      (((m.Diffs.getD m.Index []).getD i default).Path = p ∧
        ((m.update (Msg.syncDoneMsg m.Index p none h)).1.Diffs.getD m.Index []).getD
            i default =
          { (m.Diffs.getD m.Index []).getD i default with
              DstHash := h, Status := DiffStatus.Match })) ∧
    (∀ i j,
      ((m.update (Msg.syncDoneMsg m.Index p none h)).1.Diffs.getD m.Index []).getD
          i default ≠ (m.Diffs.getD m.Index []).getD i default →
      ((m.update (Msg.syncDoneMsg m.Index p none h)).1.Diffs.getD m.Index []).getD
          j default ≠ (m.Diffs.getD m.Index []).getD j default → i = j) := by
  have hupd : m.update (Msg.syncDoneMsg m.Index p none h) =
      ({ m with
          Syncing := m.Syncing.erase p,
          Diffs := m.Diffs.set m.Index (patchList p h (m.Diffs.getD m.Index [])) },
       Cmd.noCmd) := by
    simp [Model.update]
  rw [hupd]
  have hcur : (m.Diffs.set m.Index
      (patchList p h (m.Diffs.getD m.Index []))).getD m.Index [] =
      patchList p h (m.Diffs.getD m.Index []) := getD_set_self hlen
  refine ⟨rfl, rfl, rfl, rfl, List.length_set m.Diffs _ _, ?_, ?_, ?_, ?_⟩
  · intro j hj
    exact getD_set_ne (fun he => hj he.symm)
  · rw [hcur]
    exact patchList_length p h _
  · intro i
    rw [hcur]
    exact patchList_getD p h _ i
  · intro i j hi hj
    rw [hcur] at hi hj
    exact patchList_changed_unique p h _ i j hi hj

/-- Witness for C6 on a concrete one-pair session. -/
theorem C6_witness :
    (0 < (Model.mk [⟨"src", "dst"⟩] 0
        [[⟨"f", "h1", "", DiffStatus.MissingDestination⟩]] false ∅).Diffs.length) ∧
    ((Model.mk [⟨"src", "dst"⟩] 0
        [[⟨"f", "h1", "", DiffStatus.MissingDestination⟩]] false ∅).update
      (Msg.syncDoneMsg 0 "f" none "h2")).1.Pairs = [⟨"src", "dst"⟩] :=
  ⟨by decide,
   (C6_syncDone_frame (Model.mk [⟨"src", "dst"⟩] 0
      [[⟨"f", "h1", "", DiffStatus.MissingDestination⟩]] false ∅)
     "f" "h2" (by decide)).2.1⟩

/-! ### Claims about the inventory producers -/

theorem listLocalWalk_ok :
    ∀ (steps : List WalkStep) (acc l : List FileHash),
      listLocalWalk steps acc = Except.ok l → l = acc ++ steps.filterMap fileOf := by
  intro steps
  induction steps with
  | nil =>
    intro acc l h
    simp only [listLocalWalk] at h
    cases h
    simp
  | cons s rest ih =>
    intro acc l h
    cases s with
    | walkErr e => exact absurd h (by simp [listLocalWalk])
    | dirEntry q =>
      have := ih acc l h
      simpa [fileOf] using this
    | fileOk r hsh =>
      have := ih (acc ++ [FileHash.mk r hsh]) l h
      simpa [fileOf, List.append_assoc] using this
    | fileErr r e => exact absurd h (by simp [listLocalWalk])

theorem listLocalWalk_fail :
    ∀ (steps : List WalkStep) (acc : List FileHash),
      steps.any isFailStep = true →
      ∃ e, listLocalWalk steps acc = Except.error e := by
  intro steps
  induction steps with
  | nil => intro acc h; simp [List.any] at h
  | cons s rest ih =>
    intro acc h
    cases s with
    | walkErr e => exact ⟨e, rfl⟩
    | dirEntry q =>
      have hrest : rest.any isFailStep = true := by
        simpa [isFailStep] using h
      exact ih acc hrest
    | fileOk r hsh =>
      have hrest : rest.any isFailStep = true := by
        simpa [isFailStep] using h
      exact ih (acc ++ [FileHash.mk r hsh]) hrest
    | fileErr r e => exact ⟨e, rfl⟩

/-- C8: if any per-file step of a local walk fails, `ListLocal` returns
an error and no list; a successful `ListLocal` returns exactly the
successfully hashed files, never a truncated list; and a failed remote
run makes `ListRemote` return an error. -/
theorem C8_no_truncation :
    (∀ steps : List WalkStep, steps.any isFailStep = true →
      ∃ e, ListLocal steps = Except.error e) ∧
    (∀ (steps : List WalkStep) (l : List FileHash),
      ListLocal steps = Except.ok l → l = steps.filterMap fileOf) ∧
    (∀ (addr : String) (res : ExecResult) (e : String),
      res.runErr = some e → ∃ msg, ListRemote addr res = Except.error msg) := by
  refine ⟨?_, ?_, ?_⟩
  · intro steps h
    exact listLocalWalk_fail steps [] h
  · intro steps l h
    simpa using listLocalWalk_ok steps [] l h
  · intro addr res e he
    unfold ListRemote
    by_cases hc : (addr.splitOn ":").length < 2
    · rw [if_pos hc]
      exact ⟨_, rfl⟩
    · rw [if_neg hc, he]
      exact ⟨_, rfl⟩

/-- Witness for C8: a failing file aborts a local walk, a clean walk
lists every file, and a failed remote run yields an error. -/
theorem C8_witness :
    ([WalkStep.fileOk "a" "h", WalkStep.fileErr "b" "boom"].any isFailStep = true) ∧
    (∃ e, ListLocal [WalkStep.fileOk "a" "h", WalkStep.fileErr "b" "boom"] =
      Except.error e) ∧
    (([⟨"a", "h"⟩] : List FileHash) =
      [WalkStep.fileOk "a" "h"].filterMap fileOf) ∧
    (∃ msg, ListRemote "host:/p" ⟨some "x", []⟩ = Except.error msg) :=
  ⟨by decide,
   C8_no_truncation.1 [WalkStep.fileOk "a" "h", WalkStep.fileErr "b" "boom"] (by decide),
   C8_no_truncation.2.1 [WalkStep.fileOk "a" "h"] [⟨"a", "h"⟩] rfl,
   C8_no_truncation.2.2 "host:/p" ⟨some "x", []⟩ "x" rfl⟩

/- Sanity checks of the embedding on the spec's §8 examples. -/

example :
    ComputeDiff [⟨"foo.txt", "h1"⟩, ⟨"bar.txt", "h2"⟩] [⟨"foo.txt", "h1"⟩] =
      [⟨"bar.txt", "h2", "", DiffStatus.MissingDestination⟩,
       ⟨"foo.txt", "h1", "h1", DiffStatus.Match⟩] := by decide

example :
    ComputeDiff [⟨"a", "x"⟩] [⟨"a", "y"⟩, ⟨"b", "z"⟩] =
      [⟨"a", "x", "y", DiffStatus.Mismatch⟩,
       ⟨"b", "", "z", DiffStatus.MissingSource⟩] := by decide

end Titanic
